import Mathlib

/-!
Verification development for the pihub-remote dispatch core.

Shallow embedding of:
* `src/pihub/bt_le/hid_client.py` — the BLE-HID output state machine
  (`HIDClient`): keyboard and consumer channels, report de-duplication,
  consumer steady-repeat loop;
* `src/pihub/app.py` — the bounded event queue (`on_button`) and the
  debounced activities hot-reload (`_acts_apply`);
* `src/pihub/core/dispatcher.py` — activity management (`set_activity`,
  `replace_activities`), the `min_hold_ms` long-hold gate, the
  `ha_service` single/repeat firing logic, and the per-button
  hold/repeat timer bookkeeping;
* `src/pihub/core/remote_evdev.py` — the evdev event decoder
  (`read_events_scancode`) and its reconnect backoff.

Machine integers are modelled as `Nat` with explicit `% 2^w` where the
code masks; timed waits are modelled as discrete 1 ms ticks; the
cooperative single-threaded task model is embedded as an explicit
operation/step relation.
-/

namespace PiHub

/-! ## Output state machine — `src/pihub/bt_le/hid_client.py` (`HIDClient`)

State fields mirror the Python attributes `_kb_mods`, `_kb_keys`,
`_last_kb`, `_cc_usage`, `_last_cc`, `_cc_repeat_task`.  The Python
`set` `_kb_keys` is modelled as a duplicate-free list in insertion
order (only membership, cardinality and the multiset of elements are
ever observable in the claims).  Each report actually delivered to the
hardware sink (`dev.send_keyboard` / `dev.send_consumer`) is appended
to `trace`; a send where the sink raises (swallowed by the bare
`except`) is modelled by the `ok := false` variants and appends
nothing. -/

/-- The two report channels of the hardware sink. -/
inductive Chan where
  | kb
  | cc
deriving DecidableEq, Repr

/-- `HIDClient.__init__` default `max_keys = 6` (the app constructs
`HIDClient(runtime.hid)` with the default). -/
def max_keys : Nat := 6

/-- State of the `HIDClient` output machine plus the trace of reports the
hardware sink has received, in order. -/
structure HIDClient where
  kb_mods : Nat
  kb_keys : List Nat
  last_kb : Option (List Nat)
  cc_usage : Nat
  last_cc : Option (List Nat)
  cc_repeat_on : Bool
  trace : List (Chan × List Nat)
deriving DecidableEq, Repr

/-- Fresh client: `_kb_mods = 0`, `_kb_keys = set()`, `_last_kb = None`,
`_cc_usage = 0`, `_last_cc = None`, no repeat task, nothing sent. -/
def initHID : HIDClient :=
  { kb_mods := 0, kb_keys := [], last_kb := none, cc_usage := 0,
    last_cc := none, cc_repeat_on := false, trace := [] }

/-- Python `set.add` on the insertion-ordered list model. -/
def insertIfAbsent (c : Nat) (l : List Nat) : List Nat :=
  if c ∈ l then l else l ++ [c]

/-- `HIDClient._kb_build`: 2 header bytes (modifiers, 0x00) then
`max_keys` key slots, zero padded; each slot is `code & 0xFF`. -/
def kb_build (s : HIDClient) : List Nat :=
  let keys := s.kb_keys.take max_keys
  s.kb_mods :: 0 :: (keys.map (· % 256) ++ List.replicate (max_keys - keys.length) 0)

/-- `HIDClient._kb_send`: build, return early if equal to `_last_kb`,
update `_last_kb`, then try the sink (exception swallowed).  `ok`
tells whether `dev.send_keyboard` succeeded. -/
def kb_send (ok : Bool) (s : HIDClient) : HIDClient :=
  let payload := kb_build s
  if some payload = s.last_kb then s
  else
    let s := { s with last_kb := some payload }
    if ok then { s with trace := s.trace ++ [(Chan.kb, payload)] } else s

/-- `HIDClient._cc_build`: little-endian 2-byte usage. -/
def cc_build (s : HIDClient) : List Nat :=
  [s.cc_usage % 256, (s.cc_usage / 256) % 256]

/-- `HIDClient._cc_send`: build, dedupe against `_last_cc`, update the
cache, then try the sink (exception swallowed). -/
def cc_send (ok : Bool) (s : HIDClient) : HIDClient :=
  let payload := cc_build s
  if some payload = s.last_cc then s
  else
    let s := { s with last_cc := some payload }
    if ok then { s with trace := s.trace ++ [(Chan.cc, payload)] } else s

/-- The edge-driven operations of `HIDClient`, plus one tick of the
steady-repeat loop started by `_start_cc_repeat`. -/
inductive HIDOp where
  | keyDown (code mods : Nat)
  | keyUp (code : Option Nat)
  | consumerDown (usage : Nat)
  | consumerUp
  | ccTick
deriving DecidableEq, Repr

/-- One operation of `HIDClient`, with the hardware sink succeeding.

* `keyDown` (`key_down`): add the code if fewer than `max_keys` held,
  set `_kb_mods = modifiers & 0xFF`, `_kb_send`.
* `keyUp none` (`key_up()`): clear all held codes and send, but only
  if some were held; `keyUp (some c)`: discard `c`, send.
* `consumerDown` (`consumer_down`): `_cc_usage = usage & 0xFFFF`,
  `_cc_send`, then restart the repeat task.
* `consumerUp` (`consumer_up`): stop the repeat task, zero the usage,
  `_cc_send`.
* `ccTick`: one iteration of the repeat loop body: while the task is
  live and `_cc_usage` is non-zero, re-send the identical down payload
  directly via `dev.send_consumer`, bypassing `_cc_send`'s cache. -/
def hidStep (s : HIDClient) : HIDOp → HIDClient
  | .keyDown c m =>
      let keys := if s.kb_keys.length < max_keys then insertIfAbsent c s.kb_keys else s.kb_keys
      kb_send true { s with kb_keys := keys, kb_mods := m % 256 }
  | .keyUp none =>
      if s.kb_keys = [] then s else kb_send true { s with kb_keys := [] }
  | .keyUp (some c) =>
      kb_send true { s with kb_keys := s.kb_keys.erase c }
  | .consumerDown u =>
      let s := cc_send true { s with cc_usage := u % 65536 }
      { s with cc_repeat_on := true }
  | .consumerUp =>
      cc_send true { s with cc_repeat_on := false, cc_usage := 0 }
  | .ccTick =>
      if s.cc_repeat_on ∧ s.cc_usage ≠ 0 then
        { s with trace := s.trace ++ [(Chan.cc, cc_build s)] }
      else s

/-- Run a sequence of `HIDClient` operations from the fresh client. -/
def runOps (ops : List HIDOp) : HIDClient :=
  ops.foldl hidStep initHID

/-- The reports a given channel has received, in order. -/
def chanReports (c : Chan) (tr : List (Chan × List Nat)) : List (List Nat) :=
  (tr.filter (fun p => p.1 = c)).map Prod.snd

/-- No two consecutive reports on the same channel carry identical bytes. -/
def dedupOk (tr : List (Chan × List Nat)) : Prop :=
  (chanReports Chan.kb tr).Chain' (· ≠ ·) ∧ (chanReports Chan.cc tr).Chain' (· ≠ ·)

instance (tr : List (Chan × List Nat)) : Decidable (dedupOk tr) :=
  inferInstanceAs (Decidable
    ((chanReports Chan.kb tr).Chain' (· ≠ ·) ∧ (chanReports Chan.cc tr).Chain' (· ≠ ·)))

/-- Invariant tying the de-duplication caches to the trace when every
send succeeds and no repeat tick intervenes: each cache holds exactly
the last report its channel received, and no channel has received two
identical consecutive reports. -/
def HInv (s : HIDClient) : Prop :=
  s.last_kb = (chanReports Chan.kb s.trace).getLast?
  ∧ s.last_cc = (chanReports Chan.cc s.trace).getLast?
  ∧ (chanReports Chan.kb s.trace).Chain' (· ≠ ·)
  ∧ (chanReports Chan.cc s.trace).Chain' (· ≠ ·)

instance (s : HIDClient) : Decidable (HInv s) :=
  inferInstanceAs (Decidable
    (s.last_kb = (chanReports Chan.kb s.trace).getLast?
      ∧ s.last_cc = (chanReports Chan.cc s.trace).getLast?
      ∧ (chanReports Chan.kb s.trace).Chain' (· ≠ ·)
      ∧ (chanReports Chan.cc s.trace).Chain' (· ≠ ·)))

/-! ## Event pipeline — `src/pihub/app.py` (`on_button`)

`evt_q` is an `asyncio.Queue` of `(name, edge, t_in)` triples with
`maxsize = EVENT_QUEUE_MAX`, modelled as a FIFO list (head = oldest).
`on_button` does `put_nowait`; on `QueueFull` it `get_nowait`s the
oldest entry away and then `put`s — after the eviction the queue has a
free slot, so that `put` completes without suspending. -/

/-- A queued event `(name, edge, t_in)`. -/
def Ev : Type := String × String × Nat

instance : DecidableEq Ev := by unfold Ev; infer_instance

/-- `EVENT_QUEUE_MAX = 128`. -/
def EVENT_QUEUE_MAX : Nat := 128

/-- `on_button`: enqueue, evicting the oldest unprocessed entry first
when the queue is full. -/
def on_button (q : List Ev) (e : Ev) : List Ev :=
  if q.length < EVENT_QUEUE_MAX then q ++ [e] else q.tail ++ [e]

/-! ## Activities — `src/pihub/core/dispatcher.py` and `src/pihub/app.py`

`Activities` is the dataclass `{default, activities}`; the per-activity
mapping values are an opaque parameter `α` (only the key set is
inspected by the modelled operations).  `Disp` carries the dispatcher
fields read/written by `set_activity` / `replace_activities`.
`AppActs` carries the closure state of `_acts_apply` in `app.py`:
`dispatcher` plus `acts_last`, the digest of the last applied table
(the SHA-1 of a canonical JSON payload of the table; digest equality
is modelled as structural equality of the table). -/

/-- The `Activities` snapshot: declared default plus the activity map. -/
structure Activities (α : Type) where
  default : String
  activities : List (String × α)
deriving DecidableEq, Repr

/-- The dispatcher fields touched by activity management. -/
structure Disp (α : Type) where
  activity : String
  activities : Activities α
deriving DecidableEq, Repr

/-- `Dispatcher.set_activity`: strip the name; ignore it when empty or
unchanged; otherwise store it (the change callback is outside scope). -/
def set_activity (d : Disp α) (name : String) : Disp α :=
  let name := name.trim
  if name = "" then d
  else if d.activity = name then d
  else { d with activity := name }

/-- `Dispatcher.replace_activities`: swap in the new snapshot; keep the
current activity if its name is still a key, else `set_activity` to the
new default. -/
def replace_activities (d : Disp α) (acts : Activities α) : Disp α :=
  let old := d.activity
  let d := { d with activities := acts }
  if (acts.activities.map Prod.fst).contains old then d
  else set_activity d acts.default

/-- Closure state of `_acts_apply` in `app.py`. -/
structure AppActs (α : Type) where
  disp : Disp α
  acts_last : Activities α
deriving DecidableEq, Repr

/-- `_acts_apply` in `app.py`: compare digests; when unchanged do
nothing, otherwise assign `dispatcher.activities = new_acts` directly
(no fallback of the current activity name) and remember the digest. -/
def acts_apply [DecidableEq α] (st : AppActs α) (new : Activities α) : AppActs α :=
  if new = st.acts_last then st
  else { disp := { st.disp with activities := new }, acts_last := new }

/-! ## Long-hold gate — `src/pihub/core/dispatcher.py` (`min_hold_ms`)

`Dispatcher.handle` tracks `_held_keys`; `_run_action` on a Down edge
of a gated action starts a `waiter` task that sleeps `min_hold_ms`
milliseconds and then, if the button is still held, runs the action
with the gate stripped.  An Up edge (or a fresh Down) cancels-and-joins
the pending waiter.  Time is discretised: one `tick` is 1 ms; `timer =
some n` means the waiter will fire on the `n`-th next tick; `fired`
counts executions of the gate-stripped action. -/

/-- Per-button hold-gate state. -/
structure HoldSt where
  held : Bool
  timer : Option Nat
  fired : Nat
deriving DecidableEq, Repr

/-- Down/Up edges of one button, and the passage of 1 ms. -/
inductive HoldEv where
  | down
  | up
  | tick
deriving DecidableEq, Repr

/-- One step of the hold-gate machine for gate `M = min_hold_ms`:
Down marks the key held and (re)starts the waiter (the prior waiter is
cancelled and awaited first); Up un-holds the key and cancels the
waiter; a tick counts the waiter down, and on expiry the gated action
fires exactly when the key is still held. -/
def hold_step (M : Nat) (s : HoldSt) : HoldEv → HoldSt
  | .down => { s with held := true, timer := some M }
  | .up => { s with held := false, timer := none }
  | .tick =>
      match s.timer with
      | none => s
      | some n =>
          if n ≤ 1 then
            if s.held then { s with timer := none, fired := s.fired + 1 }
            else { s with timer := none }
          else { s with timer := some (n - 1) }

/-- Run the hold-gate machine from the idle state. -/
def hold_run (M : Nat) (evs : List HoldEv) : HoldSt :=
  evs.foldl (hold_step M) { held := false, timer := none, fired := 0 }

/-! ## `ha_service` actions — `src/pihub/core/dispatcher.py`

The `ha_service` branch of `_run_action` plus `_start_repeat` /
`_stop_repeat`.  `RepCfg` models the YAML `repeat` mapping with its two
optional fields; a present-but-empty mapping is falsy in Python, which
`repTruthy` reproduces.  `SvcSt.timer = some n` means the repeater
fires on the `n`-th next 1 ms tick; `every` is the cadence captured by
the running repeater; `pubs` counts `publish_ha_service` calls. -/

/-- The `repeat` mapping: `initial_ms` and `every_ms`, both optional
(defaults 500 each, applied in `_start_repeat`). -/
structure RepCfg where
  initial_ms : Option Nat
  every_ms : Option Nat
deriving DecidableEq, Repr

/-- An `ha_service` action's fields relevant to firing: the optional
`repeat` mapping and the optional `when` selector. -/
structure HaAction where
  rep : Option RepCfg
  whenField : Option String
deriving DecidableEq, Repr

/-- Python truthiness of `a.get("repeat")`: absent or an empty mapping
is falsy. -/
def repTruthy : Option RepCfg → Bool
  | none => false
  | some r => decide (r ≠ { initial_ms := none, every_ms := none })

/-- A normalised edge (as produced by `Dispatcher.handle`). -/
inductive Edge where
  | down
  | up
deriving DecidableEq, Repr

/-- The string `Dispatcher.handle` normalises an edge to. -/
def edgeStr : Edge → String
  | .down => "down"
  | .up => "up"

/-- Repeat-timer state for one button's `ha_service` action. -/
structure SvcSt where
  timer : Option Nat
  every : Nat
  pubs : Nat
deriving DecidableEq, Repr

/-- The `ha_service` branch of `_run_action` (with `self.mqtt` set):
if `repeat` is truthy, Down publishes once immediately and then
`_start_repeat` (which returns early when a repeat task for this key is
already live, else schedules the first repeat `initial_ms` from now),
and Up is `_stop_repeat`; otherwise publish once exactly when
`a.get("when", "up")` is `"both"` or equals the edge. -/
def run_action_ha (a : HaAction) (ed : Edge) (s : SvcSt) : SvcSt :=
  if repTruthy a.rep then
    match ed with
    | .down =>
        let r := a.rep.getD { initial_ms := none, every_ms := none }
        let s1 := { s with pubs := s.pubs + 1 }
        match s1.timer with
        | some _ => s1
        | none => { s1 with timer := some (r.initial_ms.getD 500),
                            every := r.every_ms.getD 500 }
    | .up => { s with timer := none }
  else
    let w := a.whenField.getD "up"
    if w = "both" ∨ w = edgeStr ed then { s with pubs := s.pubs + 1 } else s

/-- One 1 ms tick of the repeater task: on expiry publish and re-arm
`every_ms` ahead (`while key in self._repeat_tasks: fire; sleep every`). -/
def svcTick (s : SvcSt) : SvcSt :=
  match s.timer with
  | none => s
  | some n =>
      if n ≤ 1 then { s with pubs := s.pubs + 1, timer := some s.every }
      else { s with timer := some (n - 1) }

/-- `k` ticks of the repeater. -/
def svcTicks (k : Nat) (s : SvcSt) : SvcSt :=
  match k with
  | 0 => s
  | k + 1 => svcTicks k (svcTick s)

/-! ## Per-button timer bookkeeping — `src/pihub/core/dispatcher.py`

`_hold_tasks` and `_repeat_tasks` are dicts from logical-button name to
`asyncio.Task`, modelled as association lists with `Nat` task
identities.  `holdLive` / `repLive` are the tasks created and neither
cancelled nor completed; `fresh` supplies task identities.  The
operations are exactly the code paths that create or retire these
tasks. -/

/-- Association-list lookup (dict `get`). -/
def dget [DecidableEq κ] : List (κ × β) → κ → Option β
  | [], _ => none
  | (k0, v) :: t, k => if k = k0 then some v else dget t k

/-- Association-list store (dict `d[k] = v`), keeping keys unique. -/
def dset [DecidableEq κ] : List (κ × β) → κ → β → List (κ × β)
  | [], k, v => [(k, v)]
  | (k0, v0) :: t, k, v => if k = k0 then (k, v) :: t else (k0, v0) :: dset t k v

/-- Association-list removal (dict `pop(k, None)`): drop the entry. -/
def dpop [DecidableEq κ] : List (κ × β) → κ → List (κ × β)
  | [], _ => []
  | (k0, v0) :: t, k => if k = k0 then t else (k0, v0) :: dpop t k

/-- The operations that create/retire per-button tasks:

* `holdStart n` — the Down branch of the `min_hold_ms` gate
  (lines 230-238): pop `_hold_tasks[n]`, cancel-and-await it, create a
  fresh waiter and store it;
* `holdCancel n` — the Up paths (`handle` lines 201-207 and the gate's
  Up branch): pop and cancel-and-await;
* `holdExpire n` — the stored waiter runs to completion by itself (the
  dict entry remains until popped);
* `repStart n` — `_start_repeat`: return early if `n` is already in
  `_repeat_tasks`, else create and store a repeater;
* `repStop n` — `_stop_repeat`: pop and cancel-and-await. -/
inductive TimerOp where
  | holdStart (n : String)
  | holdCancel (n : String)
  | holdExpire (n : String)
  | repStart (n : String)
  | repStop (n : String)
deriving DecidableEq, Repr

/-- Dispatcher timer bookkeeping plus the set of live tasks. -/
structure TimerSys where
  hold_tasks : List (String × Nat)
  repeat_tasks : List (String × Nat)
  holdLive : List (String × Nat)
  repLive : List (String × Nat)
  fresh : Nat
deriving DecidableEq, Repr

/-- Empty bookkeeping (`_hold_tasks = {}`, `_repeat_tasks = {}`). -/
def initTimers : TimerSys :=
  { hold_tasks := [], repeat_tasks := [], holdLive := [], repLive := [], fresh := 0 }

/-- One timer-bookkeeping step; cancellation awaits the task, so the
cancelled task is no longer live when the step completes. -/
def timer_step (s : TimerSys) : TimerOp → TimerSys
  | .holdStart n =>
      let live1 := match dget s.hold_tasks n with
        | some i => s.holdLive.filter (fun p => p ≠ (n, i))
        | none => s.holdLive
      { s with hold_tasks := dset s.hold_tasks n s.fresh,
               holdLive := live1 ++ [(n, s.fresh)],
               fresh := s.fresh + 1 }
  | .holdCancel n =>
      match dget s.hold_tasks n with
      | some i => { s with hold_tasks := dpop s.hold_tasks n,
                           holdLive := s.holdLive.filter (fun p => p ≠ (n, i)) }
      | none => s
  | .holdExpire n =>
      match dget s.hold_tasks n with
      | some i => { s with holdLive := s.holdLive.filter (fun p => p ≠ (n, i)) }
      | none => s
  | .repStart n =>
      match dget s.repeat_tasks n with
      | some _ => s
      | none =>
          { s with repeat_tasks := dset s.repeat_tasks n s.fresh,
                   repLive := s.repLive ++ [(n, s.fresh)],
                   fresh := s.fresh + 1 }
  | .repStop n =>
      match dget s.repeat_tasks n with
      | some i => { s with repeat_tasks := dpop s.repeat_tasks n,
                           repLive := s.repLive.filter (fun p => p ≠ (n, i)) }
      | none => s

/-- Run timer bookkeeping from the fresh dispatcher. -/
def timer_run (ops : List TimerOp) : TimerSys :=
  ops.foldl timer_step initTimers

/-- Invariant of the timer bookkeeping: every live task is the one its
dict currently stores (so cancel-and-join before replacement leaves no
stale sibling), and each name has at most one live hold timer and at
most one live repeat timer. -/
def TInv (s : TimerSys) : Prop :=
  (∀ p ∈ s.holdLive, dget s.hold_tasks p.1 = some p.2)
  ∧ (∀ p ∈ s.repLive, dget s.repeat_tasks p.1 = some p.2)
  ∧ (∀ n : String, (s.holdLive.filter (fun p => p.1 = n)).length ≤ 1)
  ∧ (∀ n : String, (s.repLive.filter (fun p => p.1 = n)).length ≤ 1)

/-! ## Input reader — `src/pihub/core/remote_evdev.py` (`read_events_scancode`)

The read loop keeps `last_msc`, the string rendering of the most
recent `MSC_SCAN` value.  Since that string is always `str(ev.value)`
of a non-negative integer, the state stores the integer and the string
conversions happen at lookup time.  `int(s, 16)` on such a string
always succeeds and reads the decimal digits as hex digits, which
`hexReinterpret` computes numerically; the `int(s, 10)` fallback is
unreachable for these strings.  `rcfg.mapping` has string keys (the
loader builds `{str(k): str(v)}`), so the lookup
`rcfg.mapping.get(msc_int)` with an `int` key always misses; the model
keeps the subsequent `rcfg.mapping.get(str(msc_int))` lookup. -/

/-- `evdev.ecodes.EV_KEY`. -/
def EV_KEY : Nat := 1

/-- `evdev.ecodes.EV_MSC`. -/
def EV_MSC : Nat := 4

/-- `evdev.ecodes.MSC_SCAN`. -/
def MSC_SCAN : Nat := 4

/-- A raw evdev event (`ev.type`, `ev.code`, `ev.value`). -/
structure InputEvent where
  etype : Nat
  code : Nat
  value : Nat
deriving DecidableEq, Repr

/-- Reader-loop state: the most recent scan identifier, if any. -/
structure ReaderSt where
  last_msc : Option Nat
deriving DecidableEq, Repr

/-- `int(str(n), 16)` for `n ≥ 0`: the decimal digit string of `n`
re-read as hexadecimal. -/
def hexReinterpret (n : Nat) : Nat :=
  if h : n < 10 then n else hexReinterpret (n / 10) * 16 + n % 10
decreasing_by exact Nat.div_lt_self (by omega) (by omega)

/-- Python truthiness of an optional string (`None` and `""` falsy). -/
def truthyS : Option String → Bool
  | none => false
  | some s => decide (s ≠ "")

/-- Python `x or y` on optional strings. -/
def pyOr (x y : Option String) : Option String :=
  match x with
  | none => y
  | some s => if s = "" then y else some s

/-- The logical-name resolution of the read loop: the `KEY_*` fast
path (`mapping.get(key_name)` when `msc_only` is off and the keycode
has a name), then — only when that left `logical` at `None` — the
`last_msc` fallback: `int(str(m), 16)` always succeeds on the decimal
rendering (so `int(s, 10)` is never reached), the int-keyed
`mapping.get(msc_int)` always misses the str-keyed dict, then
`mapping.get(str(msc_int))`, and as last resort the literal
`mapping.get(last_msc)`. -/
def resolveLogical (mapping : List (String × String)) (msc_only : Bool)
    (key_name : Option String) (last_msc : Option Nat) : Option String :=
  let logical0 : Option String :=
    if ¬ msc_only ∧ truthyS key_name then dget mapping (key_name.getD "") else none
  match logical0, last_msc with
  | none, some m =>
      let msc_int := hexReinterpret m
      let l1 := pyOr none (dget mapping (toString msc_int))
      (match l1 with
       | none => dget mapping (toString m)
       | some v => some v)
  | l, _ => l

/-- One iteration of the `async for ev in dev.async_read_loop()` body:
track `MSC_SCAN`, keep only `EV_KEY` with value 1/0 (value 2, hardware
auto-repeat, is skipped), resolve the logical name, and emit
`(logical, edge)` or drop. -/
def stepEvent (mapping : List (String × String)) (keyTable : List (Nat × String))
    (msc_only : Bool) (st : ReaderSt) (ev : InputEvent) :
    ReaderSt × Option (String × String) :=
  if ev.etype = EV_MSC ∧ ev.code = MSC_SCAN then
    ({ last_msc := some ev.value }, none)
  else if ev.etype ≠ EV_KEY then (st, none)
  else
    let edge? : Option String :=
      if ev.value = 1 then some "down" else if ev.value = 0 then some "up" else none
    match edge? with
    | none => (st, none)
    | some edge =>
        let logical := resolveLogical mapping msc_only (dget keyTable ev.code) st.last_msc
        if truthyS logical then (st, some (logical.getD "", edge)) else (st, none)

/-- The resolution order as the claim states it: first the
keycode→logical-name mapping, then the most recent scan identifier
tried as hex, then as decimal, then as a literal string against the
mapping. -/
def specResolve (mapping : List (String × String)) (msc_only : Bool)
    (key_name : Option String) (last_msc : Option Nat) : Option String :=
  match (if ¬ msc_only then key_name.bind (fun k => dget mapping k) else none) with
  | some v => some v
  | none =>
      match last_msc with
      | none => none
      | some m =>
          match dget mapping (toString (hexReinterpret m)) with
          | some v => some v
          | none =>
              match dget mapping (toString m) with
              | some v => some v
              | none => dget mapping (toString m)

/-! ## Reconnect backoff — `src/pihub/core/remote_evdev.py`

`backoff = max(0.2, retry_backoff)`, each failure sleeps
`jitter(backoff) = backoff * uniform(0.8, 1.2)` and then multiplies the
base by 1.7, capped at `backoff_max = 10.0`.  Real arithmetic is
modelled over `ℚ`; the jitter draw is an arbitrary factor sequence. -/

/-- `backoff_max = 10.0`. -/
def backoff_max : ℚ := 10

/-- `backoff = max(0.2, float(retry_backoff))`. -/
def initialBackoff (retry_backoff : ℚ) : ℚ := max (2/10) retry_backoff

/-- `backoff = min(backoff_max, backoff * 1.7)`. -/
def nextBackoff (b : ℚ) : ℚ := min backoff_max (b * (17/10))

/-- The base after `n` consecutive failures. -/
def backoffBases (b0 : ℚ) : Nat → ℚ
  | 0 => b0
  | n + 1 => nextBackoff (backoffBases b0 n)

/-- The delay slept after the `n`-th consecutive failure:
`jitter(backoff)` with jitter factor `j n` (drawn from
`uniform(0.8, 1.2)`). -/
def sleptDelay (b0 : ℚ) (j : Nat → ℚ) (n : Nat) : ℚ :=
  backoffBases b0 n * j n

/-- The jitter draws of the run exhibited against claim C9. -/
def c9j : Nat → ℚ :=
  fun n => if n = 5 then 6/5 else if n = 6 then 4/5 else 1

/-! ## Theorems -/

/-- Claim C3: enqueuing into the full capacity-128 queue evicts exactly
the oldest unprocessed entry, admits the new event at the back
preserving the relative order of the remainder, and the resulting queue
is again exactly full (the inner `put` finds a free slot, so the reader
is never blocked). -/
theorem c3_queue_overflow (q : List Ev) (e : Ev) (h : q.length = EVENT_QUEUE_MAX) :
    on_button q e = q.tail ++ [e] ∧ (on_button q e).length = EVENT_QUEUE_MAX := by
  have h128 : q.length = 128 := h
  have hnot : ¬ q.length < 128 := by omega
  have htail : q.tail.length = 127 := by rw [List.length_tail, h128]
  constructor
  · simp [on_button, EVENT_QUEUE_MAX, hnot]
  · simp [on_button, EVENT_QUEUE_MAX, hnot, htail]

/-- A concrete full queue of 128 events. -/
def c3q : List Ev := (List.range EVENT_QUEUE_MAX).map (fun i => ("btn", "down", i))

/-- A fresh event to enqueue into the full queue. -/
def c3e : Ev := ("x", "up", 999)

/-- Witness for C3 at a concrete full queue. -/
theorem c3_queue_overflow_witness :
    on_button c3q c3e = c3q.tail ++ [c3e] :=
  (c3_queue_overflow c3q c3e (by simp [c3q])).1

/-- Claim C10: when a keyboard or consumer report differs from the
cached last report, the cache is updated to the new report even when
the hardware sink raises (the exception is swallowed and nothing is
delivered), and any send attempt whose built report equals the cache is
suppressed — so a failed send is never retried. -/
theorem c10_failed_send_cache :
    (∀ s : HIDClient, some (kb_build s) ≠ s.last_kb →
        (kb_send false s).last_kb = some (kb_build s) ∧ (kb_send false s).trace = s.trace)
    ∧ (∀ (s : HIDClient) (ok : Bool), some (kb_build s) = s.last_kb → kb_send ok s = s)
    ∧ (∀ s : HIDClient, some (cc_build s) ≠ s.last_cc →
        (cc_send false s).last_cc = some (cc_build s) ∧ (cc_send false s).trace = s.trace)
    ∧ (∀ (s : HIDClient) (ok : Bool), some (cc_build s) = s.last_cc → cc_send ok s = s) := by
  refine ⟨fun s h => ?_, fun s ok h => ?_, fun s h => ?_, fun s ok h => ?_⟩
  · simp [kb_send, h]
  · simp [kb_send, h]
  · simp [cc_send, h]
  · simp [cc_send, h]

/-- Witness for C10: from the fresh client a failing keyboard send
caches the report without delivering it. -/
theorem c10_failed_send_cache_witness :
    (kb_send false initHID).last_kb = some (kb_build initHID)
    ∧ (kb_send false initHID).trace = initHID.trace :=
  c10_failed_send_cache.1 initHID (by decide)

/-- A first activity table: default `watch`, single activity `watch`. -/
def exActs1 : Activities Unit := { default := "watch", activities := [("watch", ())] }

/-- A replacement table: default `listen`, single activity `listen`. -/
def exActs2 : Activities Unit := { default := "listen", activities := [("listen", ())] }

/-- Counterexample to claim C4 as stated: the hot-reload path
(`_acts_apply` in `app.py`) swaps the table in by direct assignment, so
when the current activity `watch` is absent from the new table the
current activity does not become the new table's declared default
`listen` — it stays `watch`. -/
theorem c4_counterexample :
    "watch" ∉ exActs2.activities.map Prod.fst
    ∧ (acts_apply { disp := { activity := "watch", activities := exActs1 },
                    acts_last := exActs1 } exActs2).disp.activity = "watch"
    ∧ exActs2.default ≠ "watch" := by
  decide

/-- Claim C4 (amended): the hot-reload application path never changes
the current activity name, whether or not it survives in the new table;
`Dispatcher.replace_activities` (not invoked by the hot-reload path)
keeps a still-present current activity verbatim, and for an absent one
falls back to the new table's default via `set_activity`, which leaves
the activity unchanged when that default strips to the empty string. -/
theorem c4_replace_activities (α : Type) [DecidableEq α] :
    (∀ (st : AppActs α) (new : Activities α),
        (acts_apply st new).disp.activity = st.disp.activity)
    ∧ (∀ (d : Disp α) (new : Activities α),
        (new.activities.map Prod.fst).contains d.activity →
        (replace_activities d new).activity = d.activity
        ∧ (replace_activities d new).activities = new)
    ∧ (∀ (d : Disp α) (new : Activities α),
        ¬ (new.activities.map Prod.fst).contains d.activity →
        (replace_activities d new).activity
          = if new.default.trim = "" then d.activity else new.default.trim) := by
  refine ⟨fun st new => ?_, fun d new h => ?_, fun d new h => ?_⟩
  · unfold acts_apply
    split <;> rfl
  · constructor
    · unfold replace_activities
      rw [if_pos h]
    · unfold replace_activities
      rw [if_pos h]
  · unfold replace_activities
    simp only [h, if_false, Bool.false_eq_true]
    unfold set_activity
    by_cases h0 : new.default.trim = ""
    · simp [h0]
    · by_cases h1 : d.activity = new.default.trim
      · simp [h0, h1]
      · simp [h0, h1]

/-- Witness for C4 (amended), third conjunct at a concrete state. -/
theorem c4_replace_activities_witness :
    (replace_activities { activity := "watch", activities := exActs1 } exActs2).activity
      = if exActs2.default.trim = "" then "watch" else exActs2.default.trim :=
  (c4_replace_activities Unit).2.2 { activity := "watch", activities := exActs1 } exActs2
    (by decide)

/-- Ticks do nothing once no waiter is pending. -/
theorem hold_ticks_none (M k : Nat) (s : HoldSt) (h : s.timer = none) :
    (List.replicate k HoldEv.tick).foldl (hold_step M) s = s := by
  induction k with
  | zero => rfl
  | succ k ih =>
      rw [List.replicate_succ, List.foldl_cons]
      have hstep : hold_step M s .tick = s := by
        simp [hold_step, h]
      rw [hstep]
      exact ih

/-- Fewer ticks than the pending countdown only count it down. -/
theorem hold_ticks_pending (M k : Nat) :
    ∀ (n f : Nat) (hd : Bool), k < n →
      (List.replicate k HoldEv.tick).foldl (hold_step M) ⟨hd, some n, f⟩
        = ⟨hd, some (n - k), f⟩ := by
  induction k with
  | zero => intro n f hd _; simp
  | succ k ih =>
      intro n f hd hlt
      rw [List.replicate_succ, List.foldl_cons]
      have hn : ¬ n ≤ 1 := by omega
      have hstep : hold_step M ⟨hd, some n, f⟩ .tick = ⟨hd, some (n - 1), f⟩ := by
        simp [hold_step, hn]
      rw [hstep, ih (n - 1) f hd (by omega)]
      have : n - 1 - k = n - (k + 1) := by omega
      rw [this]

/-- While the key stays held, the waiter fires exactly once, when the
countdown expires. -/
theorem hold_ticks_fire (M k : Nat) :
    ∀ (n f : Nat), 1 ≤ n → n ≤ k →
      (List.replicate k HoldEv.tick).foldl (hold_step M) ⟨true, some n, f⟩
        = ⟨true, none, f + 1⟩ := by
  induction k with
  | zero => intro n f h1 h2; omega
  | succ k ih =>
      intro n f h1 h2
      rw [List.replicate_succ, List.foldl_cons]
      by_cases hn : n ≤ 1
      · have hstep : hold_step M ⟨true, some n, f⟩ .tick = ⟨true, none, f + 1⟩ := by
          simp [hold_step, hn]
        rw [hstep]
        exact hold_ticks_none M k _ rfl
      · have hstep : hold_step M ⟨true, some n, f⟩ .tick = ⟨true, some (n - 1), f⟩ := by
          simp [hold_step, hn]
        rw [hstep]
        exact ih (n - 1) f (by omega) (by omega)

/-- Claim C2: for a button action gated by `minHoldMs = M` (`M ≥ 1`),
pressing at time 0 and releasing after `U` ms (then waiting any `K`
further ms) executes the gate-stripped action zero times when `U < M`
and exactly once when the button is still held as `M` elapses. -/
theorem c2_min_hold_gate (M U K : Nat) (hM : 1 ≤ M) :
    (hold_run M (HoldEv.down ::
        (List.replicate U HoldEv.tick ++ HoldEv.up :: List.replicate K HoldEv.tick))).fired
      = if U < M then 0 else 1 := by
  unfold hold_run
  rw [List.foldl_cons]
  have hdown : hold_step M ⟨false, none, 0⟩ .down = ⟨true, some M, 0⟩ := by
    simp [hold_step]
  rw [hdown, List.foldl_append]
  by_cases hU : U < M
  · rw [hold_ticks_pending M U M 0 true hU, List.foldl_cons]
    have hup : hold_step M ⟨true, some (M - U), 0⟩ .up = ⟨false, none, 0⟩ := by
      simp [hold_step]
    rw [hup, hold_ticks_none M K _ rfl, if_pos hU]
  · rw [hold_ticks_fire M U M 0 hM (by omega), List.foldl_cons]
    have hup : hold_step M ⟨true, none, 1⟩ .up = ⟨false, none, 1⟩ := by
      simp [hold_step]
    rw [hup, hold_ticks_none M K _ rfl, if_neg hU]

/-- Witness for C2: `minHoldMs = 100`, released at 40 ms, no firing. -/
theorem c2_min_hold_gate_witness :
    (hold_run 100 (HoldEv.down ::
        (List.replicate 40 HoldEv.tick ++ HoldEv.up :: List.replicate 5 HoldEv.tick))).fired
      = if 40 < 100 then 0 else 1 :=
  c2_min_hold_gate 100 40 5 (by decide)

/-- Repeater ticks do nothing while no repeat task is live. -/
theorem svcTicks_none (k : Nat) (s : SvcSt) (h : s.timer = none) :
    svcTicks k s = s := by
  induction k with
  | zero => rfl
  | succ k ih =>
      have hstep : svcTick s = s := by simp [svcTick, h]
      rw [svcTicks, hstep]
      exact ih

/-- Fewer ticks than the repeater's countdown only count it down. -/
theorem svcTicks_pending (k : Nat) :
    ∀ (n e p : Nat), k < n → svcTicks k ⟨some n, e, p⟩ = ⟨some (n - k), e, p⟩ := by
  induction k with
  | zero => intro n e p _; simp [svcTicks]
  | succ k ih =>
      intro n e p hlt
      have hn : ¬ n ≤ 1 := by omega
      have hstep : svcTick ⟨some n, e, p⟩ = ⟨some (n - 1), e, p⟩ := by
        simp [svcTick, hn]
      rw [svcTicks, hstep, ih (n - 1) e p (by omega)]
      have : n - 1 - k = n - (k + 1) := by omega
      rw [this]

/-- When the countdown expires the repeater publishes once and re-arms
`every` ms ahead. -/
theorem svcTicks_expire (n : Nat) :
    ∀ (e p : Nat), 1 ≤ n → svcTicks n ⟨some n, e, p⟩ = ⟨some e, e, p + 1⟩ := by
  induction n with
  | zero => intro e p h; omega
  | succ n ih =>
      intro e p _
      by_cases hn : n + 1 ≤ 1
      · have hn0 : n = 0 := by omega
        subst hn0
        have hstep : svcTick ⟨some 1, e, p⟩ = ⟨some e, e, p + 1⟩ := by
          simp [svcTick]
        rw [svcTicks, hstep]
        rfl
      · have hstep : svcTick ⟨some (n + 1), e, p⟩ = ⟨some n, e, p⟩ := by
          simp [svcTick, hn]
        rw [svcTicks, hstep]
        exact ih e p (by omega)

/-- Splitting a run of repeater ticks. -/
theorem svcTicks_add (a b : Nat) :
    ∀ s : SvcSt, svcTicks (a + b) s = svcTicks b (svcTicks a s) := by
  induction a with
  | zero => intro s; rw [Nat.zero_add]; rfl
  | succ a ih =>
      intro s
      have : a + 1 + b = (a + b) + 1 := by omega
      rw [this, svcTicks, svcTicks, ih (svcTick s)]

/-- A re-armed repeater publishes exactly once every `e` ticks. -/
theorem svcTicks_period (e : Nat) (he : 1 ≤ e) :
    ∀ (m p : Nat), svcTicks (m * e) ⟨some e, e, p⟩ = ⟨some e, e, p + m⟩ := by
  intro m
  induction m with
  | zero => intro p; rw [Nat.zero_mul]; rfl
  | succ m ih =>
      intro p
      have : (m + 1) * e = e + m * e := by ring
      rw [this, svcTicks_add, svcTicks_expire e e p he, ih (p + 1)]
      have : p + 1 + m = p + (m + 1) := by omega
      rw [this]

/-- Counterexample to claim C5 as stated: a `serviceCall` whose
`repeat` field is present but an empty mapping is falsy in Python, so a
Down edge publishes nothing (default `when` is `up`) and starts no
repeat timer, instead of publishing once immediately and starting the
timer. -/
theorem c5_counterexample :
    run_action_ha { rep := some { initial_ms := none, every_ms := none }, whenField := none }
        Edge.down { timer := none, every := 0, pubs := 0 }
      = { timer := none, every := 0, pubs := 0 } := by
  decide

/-- Claim C5 (amended): for a `serviceCall` whose `repeat` field is
present and non-empty, a Down edge (with no repeat task already live
for the button) publishes once immediately and arms the repeater
`initialMs` ahead; no repeat fires before `initialMs`; the first repeat
fires exactly at `initialMs` and re-arms at `everyMs`, after which
repeats fire every `everyMs`; an Up edge stops the repeater and, with
no live repeater, ticks publish nothing further.  For a `serviceCall`
whose `repeat` field is absent — or present but empty, which Python
treats identically — the call is published exactly once, when
`a.get("when", "up")` is `"both"` or equals the edge. -/
theorem c5_service_call (r : RepCfg) (w : Option String)
    (hr : r ≠ { initial_ms := none, every_ms := none }) :
    (run_action_ha { rep := some r, whenField := w } Edge.down { timer := none, every := 0, pubs := 0 }
        = { timer := some (r.initial_ms.getD 500), every := r.every_ms.getD 500, pubs := 1 })
    ∧ (∀ t, t < r.initial_ms.getD 500 →
        (svcTicks t (run_action_ha { rep := some r, whenField := w } Edge.down
            { timer := none, every := 0, pubs := 0 })).pubs = 1)
    ∧ (1 ≤ r.initial_ms.getD 500 →
        svcTicks (r.initial_ms.getD 500)
            (run_action_ha { rep := some r, whenField := w } Edge.down
              { timer := none, every := 0, pubs := 0 })
          = { timer := some (r.every_ms.getD 500), every := r.every_ms.getD 500, pubs := 2 })
    ∧ (1 ≤ r.initial_ms.getD 500 → 1 ≤ r.every_ms.getD 500 → ∀ m,
        svcTicks (r.initial_ms.getD 500 + m * r.every_ms.getD 500)
            (run_action_ha { rep := some r, whenField := w } Edge.down
              { timer := none, every := 0, pubs := 0 })
          = { timer := some (r.every_ms.getD 500), every := r.every_ms.getD 500, pubs := 2 + m })
    ∧ (∀ s, run_action_ha { rep := some r, whenField := w } Edge.up s = { s with timer := none })
    ∧ (∀ (k : Nat) (s : SvcSt), s.timer = none → svcTicks k s = s)
    ∧ (∀ (w2 : Option String) (ed : Edge) (s),
        run_action_ha { rep := none, whenField := w2 } ed s
          = { s with pubs := s.pubs +
              (if w2.getD "up" = "both" ∨ w2.getD "up" = edgeStr ed then 1 else 0) })
    ∧ (∀ (w2 : Option String) (ed : Edge) (s),
        run_action_ha { rep := some { initial_ms := none, every_ms := none }, whenField := w2 } ed s
          = run_action_ha { rep := none, whenField := w2 } ed s) := by
  have htr : repTruthy (some r) = true := by
    simp [repTruthy, hr]
  have hdown :
      run_action_ha { rep := some r, whenField := w } Edge.down { timer := none, every := 0, pubs := 0 }
        = { timer := some (r.initial_ms.getD 500), every := r.every_ms.getD 500, pubs := 1 } := by
    simp [run_action_ha, htr]
  refine ⟨hdown, ?_, ?_, ?_, ?_, ?_, ?_, ?_⟩
  · intro t ht
    rw [hdown, svcTicks_pending t (r.initial_ms.getD 500) (r.every_ms.getD 500) 1 ht]
  · intro hi
    rw [hdown, svcTicks_expire (r.initial_ms.getD 500) (r.every_ms.getD 500) 1 hi]
  · intro hi he m
    rw [hdown, svcTicks_add, svcTicks_expire (r.initial_ms.getD 500) (r.every_ms.getD 500) 1 hi,
      svcTicks_period (r.every_ms.getD 500) he m 2]
  · intro s
    simp [run_action_ha, htr]
  · intro k s h
    exact svcTicks_none k s h
  · intro w2 ed s
    by_cases hw : w2.getD "up" = "both" ∨ w2.getD "up" = edgeStr ed
    · simp [run_action_ha, repTruthy, hw]
    · simp [run_action_ha, repTruthy, hw]
  · intro w2 ed s
    simp [run_action_ha, repTruthy]

/-- Witness for C5 (amended): `repeat {initial_ms: 3, every_ms: 2}`,
Down at t = 0: publishes at 0, re-publishes at 3, 5 and 7 ms. -/
theorem c5_service_call_witness :
    svcTicks (3 + 2 * 2)
        (run_action_ha { rep := some { initial_ms := some 3, every_ms := some 2 }, whenField := none }
          Edge.down { timer := none, every := 0, pubs := 0 })
      = { timer := some 2, every := 2, pubs := 4 } :=
  (c5_service_call { initial_ms := some 3, every_ms := some 2 } none (by decide)).2.2.2.1
    (by decide) (by decide) 2

/-- Appending one report extends exactly its own channel's view. -/
theorem chanReports_append (c : Chan) (tr : List (Chan × List Nat)) (x : Chan × List Nat) :
    chanReports c (tr ++ [x]) = chanReports c tr ++ (if x.1 = c then [x.2] else []) := by
  unfold chanReports
  rw [List.filter_append]
  by_cases h : x.1 = c
  · simp [h]
  · simp [h]

/-- A chain of pairwise-distinct neighbours extends by any element
different from the last. -/
theorem chain'_ne_concat (l : List (List Nat)) (p : List Nat)
    (h : l.Chain' (· ≠ ·)) (hne : l.getLast? ≠ some p) :
    (l ++ [p]).Chain' (· ≠ ·) := by
  rw [List.chain'_append]
  refine ⟨h, List.chain'_singleton p, ?_⟩
  intro x hx y hy
  simp only [List.head?_cons, Option.mem_def, Option.some.injEq] at hy
  subst hy
  rw [Option.mem_def] at hx
  intro hxy
  exact hne (hxy ▸ hx)

/-- `kb_send` with a succeeding sink, as a top-level conditional. -/
theorem kb_send_true_eq (s : HIDClient) :
    kb_send true s =
      if some (kb_build s) = s.last_kb then s
      else { s with last_kb := some (kb_build s),
                    trace := s.trace ++ [(Chan.kb, kb_build s)] } := rfl

/-- `cc_send` with a succeeding sink, as a top-level conditional. -/
theorem cc_send_true_eq (s : HIDClient) :
    cc_send true s =
      if some (cc_build s) = s.last_cc then s
      else { s with last_cc := some (cc_build s),
                    trace := s.trace ++ [(Chan.cc, cc_build s)] } := rfl

/-- A deduplicated keyboard send preserves the cache/trace invariant. -/
theorem HInv_kb_send (s : HIDClient) (h : HInv s) : HInv (kb_send true s) := by
  rw [kb_send_true_eq]
  by_cases heq : some (kb_build s) = s.last_kb
  · rw [if_pos heq]; exact h
  · rw [if_neg heq]
    obtain ⟨h1, h2, hk, hc⟩ := h
    have hkb : chanReports Chan.kb (s.trace ++ [(Chan.kb, kb_build s)])
        = chanReports Chan.kb s.trace ++ [kb_build s] := by
      rw [chanReports_append]; simp
    have hcc : chanReports Chan.cc (s.trace ++ [(Chan.kb, kb_build s)])
        = chanReports Chan.cc s.trace := by
      rw [chanReports_append]; simp
    refine ⟨?_, ?_, ?_, ?_⟩
    · show some (kb_build s) = (chanReports Chan.kb (s.trace ++ [(Chan.kb, kb_build s)])).getLast?
      rw [hkb]
      exact (List.getLast?_append_cons _ (kb_build s) []).symm
    · show s.last_cc = (chanReports Chan.cc (s.trace ++ [(Chan.kb, kb_build s)])).getLast?
      rw [hcc]; exact h2
    · show (chanReports Chan.kb (s.trace ++ [(Chan.kb, kb_build s)])).Chain' (· ≠ ·)
      rw [hkb]
      exact chain'_ne_concat _ _ hk (fun hl => heq (h1.trans hl).symm)
    · show (chanReports Chan.cc (s.trace ++ [(Chan.kb, kb_build s)])).Chain' (· ≠ ·)
      rw [hcc]; exact hc

/-- A deduplicated consumer send preserves the cache/trace invariant. -/
theorem HInv_cc_send (s : HIDClient) (h : HInv s) : HInv (cc_send true s) := by
  rw [cc_send_true_eq]
  by_cases heq : some (cc_build s) = s.last_cc
  · rw [if_pos heq]; exact h
  · rw [if_neg heq]
    obtain ⟨h1, h2, hk, hc⟩ := h
    have hcc : chanReports Chan.cc (s.trace ++ [(Chan.cc, cc_build s)])
        = chanReports Chan.cc s.trace ++ [cc_build s] := by
      rw [chanReports_append]; simp
    have hkb : chanReports Chan.kb (s.trace ++ [(Chan.cc, cc_build s)])
        = chanReports Chan.kb s.trace := by
      rw [chanReports_append]; simp
    refine ⟨?_, ?_, ?_, ?_⟩
    · show s.last_kb = (chanReports Chan.kb (s.trace ++ [(Chan.cc, cc_build s)])).getLast?
      rw [hkb]; exact h1
    · show some (cc_build s) = (chanReports Chan.cc (s.trace ++ [(Chan.cc, cc_build s)])).getLast?
      rw [hcc]
      exact (List.getLast?_append_cons _ (cc_build s) []).symm
    · show (chanReports Chan.kb (s.trace ++ [(Chan.cc, cc_build s)])).Chain' (· ≠ ·)
      rw [hkb]; exact hk
    · show (chanReports Chan.cc (s.trace ++ [(Chan.cc, cc_build s)])).Chain' (· ≠ ·)
      rw [hcc]
      exact chain'_ne_concat _ _ hc (fun hl => heq (h2.trans hl).symm)

/-- Every edge-driven operation preserves the cache/trace invariant. -/
theorem HInv_step (s : HIDClient) (op : HIDOp) (hop : op ≠ HIDOp.ccTick) (h : HInv s) :
    HInv (hidStep s op) := by
  cases op with
  | keyDown c m => exact HInv_kb_send _ h
  | keyUp c =>
      cases c with
      | none =>
          show HInv (if s.kb_keys = [] then s else kb_send true { s with kb_keys := [] })
          by_cases he : s.kb_keys = []
          · rw [if_pos he]; exact h
          · rw [if_neg he]; exact HInv_kb_send _ h
      | some c => exact HInv_kb_send _ h
  | consumerDown u => exact HInv_cc_send { s with cc_usage := u % 65536 } h
  | consumerUp => exact HInv_cc_send _ h
  | ccTick => exact absurd rfl hop

/-- The invariant holds along any edge-only run. -/
theorem HInv_foldl :
    ∀ (ops : List HIDOp) (s : HIDClient), HIDOp.ccTick ∉ ops → HInv s →
      HInv (ops.foldl hidStep s) := by
  intro ops
  induction ops with
  | nil => intro s _ h; exact h
  | cons op t ih =>
      intro s hmem h
      rw [List.foldl_cons]
      have hop : op ≠ HIDOp.ccTick := by
        intro e
        exact hmem (e ▸ List.mem_cons_self op t)
      have ht : HIDOp.ccTick ∉ t := fun hm => hmem (List.mem_cons_of_mem op hm)
      exact ih (hidStep s op) ht (HInv_step s op hop h)

/-- Counterexample to claim C1 as stated: `consumerDown` followed by
one tick of the steady-repeat loop it starts makes the sink receive the
same consumer report twice in a row — the repeat loop deliberately
bypasses `_cc_send`'s de-duplication cache. -/
theorem c1_counterexample :
    ¬ dedupOk (runOps [HIDOp.consumerDown 233, HIDOp.ccTick]).trace := by
  intro h
  have htr : (runOps [HIDOp.consumerDown 233, HIDOp.ccTick]).trace
      = [(Chan.cc, [233, 0]), (Chan.cc, [233, 0])] := by decide
  rw [htr] at h
  have hcr : chanReports Chan.cc [(Chan.cc, [233, 0]), (Chan.cc, [233, 0])]
      = [[233, 0], [233, 0]] := by decide
  have hchain := h.2
  rw [hcr] at hchain
  exact (List.chain'_cons.mp hchain).1 rfl

/-- Claim C1 (amended): over any sequence of the edge-driven operations
`keyDown`, `keyUp`, `consumerDown`, `consumerUp` — excluding the
steady-repeat timer's ticks, which deliberately re-send an identical
consumer payload — the hardware sink never receives two consecutive
reports with identical bytes on the same channel. -/
theorem c1_no_duplicate_reports (ops : List HIDOp) (h : HIDOp.ccTick ∉ ops) :
    dedupOk (runOps ops).trace := by
  have hinit : HInv initHID := ⟨rfl, rfl, List.chain'_nil, List.chain'_nil⟩
  have hinv := HInv_foldl ops initHID h hinit
  exact ⟨hinv.2.2.1, hinv.2.2.2⟩

/-- Witness for C1 (amended) on a concrete edge sequence. -/
theorem c1_no_duplicate_reports_witness :
    dedupOk (runOps [HIDOp.keyDown 4 0, HIDOp.consumerDown 233, HIDOp.consumerUp,
        HIDOp.keyUp none]).trace :=
  c1_no_duplicate_reports
    [HIDOp.keyDown 4 0, HIDOp.consumerDown 233, HIDOp.consumerUp, HIDOp.keyUp none]
    (by decide)

/-- Storing under a key makes lookup of that key return the new value. -/
theorem dget_dset_self [DecidableEq κ] (l : List (κ × β)) (k : κ) (v : β) :
    dget (dset l k v) k = some v := by
  induction l with
  | nil => simp [dset, dget]
  | cons hd t ih =>
      obtain ⟨k0, v0⟩ := hd
      by_cases hk : k = k0
      · subst hk; simp [dset, dget]
      · simp [dset, dget, hk]
        exact ih

/-- Storing under a key leaves other keys' lookups unchanged. -/
theorem dget_dset_ne [DecidableEq κ] (l : List (κ × β)) (k k' : κ) (v : β) (h : k' ≠ k) :
    dget (dset l k v) k' = dget l k' := by
  induction l with
  | nil => simp [dset, dget, h]
  | cons hd t ih =>
      obtain ⟨k0, v0⟩ := hd
      by_cases hk : k = k0
      · subst hk; simp [dset, dget, h]
      · by_cases hk' : k' = k0
        · subst hk'; simp [dset, dget, hk]
        · simp [dset, dget, hk, hk']
          exact ih

/-- Popping a key leaves other keys' lookups unchanged. -/
theorem dget_dpop_ne [DecidableEq κ] (l : List (κ × β)) (k k' : κ) (h : k' ≠ k) :
    dget (dpop l k) k' = dget l k' := by
  induction l with
  | nil => rfl
  | cons hd t ih =>
      obtain ⟨k0, v0⟩ := hd
      by_cases hk : k = k0
      · subst hk; simp [dpop, dget, h]
      · by_cases hk' : k' = k0
        · subst hk'; simp [dpop, dget, hk]
        · simp [dpop, dget, hk, hk']
          exact ih

/-- A list without entries for a name filters to nothing at that name. -/
theorem filter_name_nil (l : List (String × Nat)) (n : String)
    (h : ∀ p ∈ l, p.1 ≠ n) : l.filter (fun p => p.1 = n) = [] := by
  apply List.filter_eq_nil_iff.mpr
  intro a ha
  simpa using h a ha

/-- Each `timer_step` preserves the timer invariant. -/
theorem TInv_step (s : TimerSys) (op : TimerOp) (h : TInv s) : TInv (timer_step s op) := by
  obtain ⟨hl, rl, hc, rc⟩ := h
  cases op with
  | holdStart n =>
      show TInv
        { s with hold_tasks := dset s.hold_tasks n s.fresh,
                 holdLive :=
                   (match dget s.hold_tasks n with
                     | some i => s.holdLive.filter (fun p => p ≠ (n, i))
                     | none => s.holdLive) ++ [(n, s.fresh)],
                 fresh := s.fresh + 1 }
      have hsub : List.Sublist
          (match dget s.hold_tasks n with
            | some i => s.holdLive.filter (fun p => p ≠ (n, i))
            | none => s.holdLive) s.holdLive := by
        cases dget s.hold_tasks n with
        | none => exact List.Sublist.refl _
        | some i => exact List.filter_sublist _
      have hnotn : ∀ p ∈
          (match dget s.hold_tasks n with
            | some i => s.holdLive.filter (fun p => p ≠ (n, i))
            | none => s.holdLive), p.1 ≠ n := by
        cases hdg : dget s.hold_tasks n with
        | none =>
            intro p hp hpn
            have := hl p hp
            rw [hpn] at this
            rw [hdg] at this
            exact Option.noConfusion this
        | some i =>
            intro p hp hpn
            rw [List.mem_filter] at hp
            obtain ⟨hpl, hpne⟩ := hp
            have hlink := hl p hpl
            rw [hpn, hdg] at hlink
            have hp2 : p.2 = i := (Option.some_inj.mp hlink).symm
            apply (by simpa using hpne)
            have : p = (p.1, p.2) := rfl
            rw [this, hpn, hp2]
      refine ⟨?_, ?_, ?_, ?_⟩
      · intro p hp
        rw [List.mem_append] at hp
        rcases hp with hp | hp
        · have hne := hnotn p hp
          rw [dget_dset_ne s.hold_tasks n p.1 s.fresh hne]
          exact hl p (hsub.mem hp)
        · rw [List.mem_singleton] at hp
          subst hp
          exact dget_dset_self s.hold_tasks n s.fresh
      · exact rl
      · intro m
        rw [List.filter_append]
        by_cases hm : m = n
        · subst hm
          rw [filter_name_nil _ m hnotn]
          simp
        · have hone : List.filter (fun p => p.1 = m) [(n, s.fresh)] = [] := by
            simp
            exact fun hh => hm hh.symm
          rw [hone, List.append_nil]
          exact le_trans ((hsub.filter _).length_le) (hc m)
      · exact rc
  | holdCancel n =>
      show TInv
        (match dget s.hold_tasks n with
          | some i =>
              { s with hold_tasks := dpop s.hold_tasks n,
                       holdLive := s.holdLive.filter (fun p => p ≠ (n, i)) }
          | none => s)
      cases hdg : dget s.hold_tasks n with
      | none => exact ⟨hl, rl, hc, rc⟩
      | some i =>
          refine ⟨?_, rl, ?_, rc⟩
          · intro p hp
            rw [List.mem_filter] at hp
            obtain ⟨hpl, hpne⟩ := hp
            have hpn : p.1 ≠ n := by
              intro hpn
              have hlink := hl p hpl
              rw [hpn, hdg] at hlink
              have hp2 : p.2 = i := (Option.some_inj.mp hlink).symm
              apply (by simpa using hpne)
              have : p = (p.1, p.2) := rfl
              rw [this, hpn, hp2]
            rw [dget_dpop_ne s.hold_tasks n p.1 hpn]
            exact hl p hpl
          · intro m
            calc ((s.holdLive.filter (fun p => p ≠ (n, i))).filter (fun p => p.1 = m)).length
                ≤ (s.holdLive.filter (fun p => p.1 = m)).length :=
                  ((List.filter_sublist _).filter _).length_le
              _ ≤ 1 := hc m
  | holdExpire n =>
      show TInv
        (match dget s.hold_tasks n with
          | some i => { s with holdLive := s.holdLive.filter (fun p => p ≠ (n, i)) }
          | none => s)
      cases hdg : dget s.hold_tasks n with
      | none => exact ⟨hl, rl, hc, rc⟩
      | some i =>
          refine ⟨?_, rl, ?_, rc⟩
          · intro p hp
            rw [List.mem_filter] at hp
            exact hl p hp.1
          · intro m
            calc ((s.holdLive.filter (fun p => p ≠ (n, i))).filter (fun p => p.1 = m)).length
                ≤ (s.holdLive.filter (fun p => p.1 = m)).length :=
                  ((List.filter_sublist _).filter _).length_le
              _ ≤ 1 := hc m
  | repStart n =>
      show TInv
        (match dget s.repeat_tasks n with
          | some _ => s
          | none =>
              { s with repeat_tasks := dset s.repeat_tasks n s.fresh,
                       repLive := s.repLive ++ [(n, s.fresh)],
                       fresh := s.fresh + 1 })
      cases hdg : dget s.repeat_tasks n with
      | some i => exact ⟨hl, rl, hc, rc⟩
      | none =>
          have hnotn : ∀ p ∈ s.repLive, p.1 ≠ n := by
            intro p hp hpn
            have := rl p hp
            rw [hpn, hdg] at this
            exact Option.noConfusion this
          refine ⟨hl, ?_, hc, ?_⟩
          · intro p hp
            rw [List.mem_append] at hp
            rcases hp with hp | hp
            · rw [dget_dset_ne s.repeat_tasks n p.1 s.fresh (hnotn p hp)]
              exact rl p hp
            · rw [List.mem_singleton] at hp
              subst hp
              exact dget_dset_self s.repeat_tasks n s.fresh
          · intro m
            rw [List.filter_append]
            by_cases hm : m = n
            · subst hm
              rw [filter_name_nil _ m hnotn]
              simp
            · have hone : List.filter (fun p => p.1 = m) [(n, s.fresh)] = [] := by
                simp
                exact fun hh => hm hh.symm
              rw [hone, List.append_nil]
              exact rc m
  | repStop n =>
      show TInv
        (match dget s.repeat_tasks n with
          | some i =>
              { s with repeat_tasks := dpop s.repeat_tasks n,
                       repLive := s.repLive.filter (fun p => p ≠ (n, i)) }
          | none => s)
      cases hdg : dget s.repeat_tasks n with
      | none => exact ⟨hl, rl, hc, rc⟩
      | some i =>
          refine ⟨hl, ?_, hc, ?_⟩
          · intro p hp
            rw [List.mem_filter] at hp
            obtain ⟨hpl, hpne⟩ := hp
            have hpn : p.1 ≠ n := by
              intro hpn
              have hlink := rl p hpl
              rw [hpn, hdg] at hlink
              have hp2 : p.2 = i := (Option.some_inj.mp hlink).symm
              apply (by simpa using hpne)
              have : p = (p.1, p.2) := rfl
              rw [this, hpn, hp2]
            rw [dget_dpop_ne s.repeat_tasks n p.1 hpn]
            exact rl p hpl
          · intro m
            calc ((s.repLive.filter (fun p => p ≠ (n, i))).filter (fun p => p.1 = m)).length
                ≤ (s.repLive.filter (fun p => p.1 = m)).length :=
                  ((List.filter_sublist _).filter _).length_le
              _ ≤ 1 := rc m

/-- The timer invariant holds along every run. -/
theorem TInv_foldl :
    ∀ (ops : List TimerOp) (s : TimerSys), TInv s → TInv (ops.foldl timer_step s) := by
  intro ops
  induction ops with
  | nil => intro s h; exact h
  | cons op t ih =>
      intro s h
      rw [List.foldl_cons]
      exact ih (timer_step s op) (TInv_step s op h)

/-- Claim C6: along every sequence of timer operations, each
logical-button name has at most one live HoldTimer and at most one live
RepeatTimer; moreover, right after starting a new hold timer for a
name, the only live hold timer for that name is the freshly created one
— the prior was cancelled and its termination awaited first. -/
theorem c6_single_live_timer :
    (∀ (ops : List TimerOp) (n : String),
        ((timer_run ops).holdLive.filter (fun p => p.1 = n)).length ≤ 1
        ∧ ((timer_run ops).repLive.filter (fun p => p.1 = n)).length ≤ 1)
    ∧ (∀ (s : TimerSys) (n : String) (p : String × Nat),
        (∀ q ∈ s.holdLive, dget s.hold_tasks q.1 = some q.2) →
        p ∈ (timer_step s (TimerOp.holdStart n)).holdLive → p.1 = n → p = (n, s.fresh)) := by
  constructor
  · intro ops n
    have hinit : TInv initTimers := by
      refine ⟨?_, ?_, ?_, ?_⟩ <;> intro p <;> simp [initTimers]
    have h := TInv_foldl ops initTimers hinit
    exact ⟨h.2.2.1 n, h.2.2.2 n⟩
  · intro s n p hlink hp hpn
    have hnotn : ∀ q ∈
        (match dget s.hold_tasks n with
          | some i => s.holdLive.filter (fun q => q ≠ (n, i))
          | none => s.holdLive), q.1 ≠ n := by
      cases hdg : dget s.hold_tasks n with
      | none =>
          intro q hq hqn
          have := hlink q hq
          rw [hqn, hdg] at this
          exact Option.noConfusion this
      | some i =>
          intro q hq hqn
          rw [List.mem_filter] at hq
          obtain ⟨hql, hqne⟩ := hq
          have hq2 := hlink q hql
          rw [hqn, hdg] at hq2
          have : q.2 = i := (Option.some_inj.mp hq2).symm
          apply (by simpa using hqne)
          have hqeta : q = (q.1, q.2) := rfl
          rw [hqeta, hqn, this]
    have hp' : p ∈
        (match dget s.hold_tasks n with
          | some i => s.holdLive.filter (fun q => q ≠ (n, i))
          | none => s.holdLive) ++ [(n, s.fresh)] := hp
    rw [List.mem_append] at hp'
    rcases hp' with hp' | hp'
    · exact absurd hpn (hnotn p hp')
    · rw [List.mem_singleton] at hp'
      exact hp'

/-- Witness for C6, second conjunct, at the fresh dispatcher. -/
theorem c6_single_live_timer_witness :
    ("vol_up", 0) = (("vol_up", 0) : String × Nat) ∧
      ("vol_up", (0 : Nat)) = ("vol_up", initTimers.fresh) :=
  ⟨rfl, c6_single_live_timer.2 initTimers "vol_up" ("vol_up", 0)
    (by intro q hq; simp [initTimers] at hq)
    (by decide) rfl⟩

/-- `_kb_send` never touches the held-key set. -/
theorem kb_send_kb_keys (ok : Bool) (s : HIDClient) : (kb_send ok s).kb_keys = s.kb_keys := by
  by_cases hd : some (kb_build s) = s.last_kb
  · simp [kb_send, hd]
  · by_cases ho : ok <;> simp [kb_send, hd, ho]

/-- `_kb_send` never touches the modifier mask. -/
theorem kb_send_kb_mods (ok : Bool) (s : HIDClient) : (kb_send ok s).kb_mods = s.kb_mods := by
  by_cases hd : some (kb_build s) = s.last_kb
  · simp [kb_send, hd]
  · by_cases ho : ok <;> simp [kb_send, hd, ho]

/-- `_cc_send` never touches the held-key set. -/
theorem cc_send_kb_keys (ok : Bool) (s : HIDClient) : (cc_send ok s).kb_keys = s.kb_keys := by
  by_cases hd : some (cc_build s) = s.last_cc
  · simp [cc_send, hd]
  · by_cases ho : ok <;> simp [cc_send, hd, ho]

/-- `_cc_send` never touches the modifier mask. -/
theorem cc_send_kb_mods (ok : Bool) (s : HIDClient) : (cc_send ok s).kb_mods = s.kb_mods := by
  by_cases hd : some (cc_build s) = s.last_cc
  · simp [cc_send, hd]
  · by_cases ho : ok <;> simp [cc_send, hd, ho]

/-- The held-key set after `key_down`. -/
theorem hidStep_keyDown_kb_keys (s : HIDClient) (c m : Nat) :
    (hidStep s (HIDOp.keyDown c m)).kb_keys
      = if s.kb_keys.length < max_keys then insertIfAbsent c s.kb_keys else s.kb_keys := by
  show (kb_send true { s with
      kb_keys := if s.kb_keys.length < max_keys then insertIfAbsent c s.kb_keys else s.kb_keys,
      kb_mods := m % 256 }).kb_keys = _
  rw [kb_send_kb_keys]

/-- The modifier mask after `key_down` is `modifiers & 0xFF`. -/
theorem hidStep_keyDown_kb_mods (s : HIDClient) (c m : Nat) :
    (hidStep s (HIDOp.keyDown c m)).kb_mods = m % 256 := by
  show (kb_send true { s with
      kb_keys := if s.kb_keys.length < max_keys then insertIfAbsent c s.kb_keys else s.kb_keys,
      kb_mods := m % 256 }).kb_mods = _
  rw [kb_send_kb_mods]

/-- The built keyboard report ignores the cache and trace fields. -/
theorem kb_build_congr (s : HIDClient) (x : Option (List Nat)) (y : List (Chan × List Nat)) :
    kb_build { s with last_kb := x, trace := y } = kb_build s := rfl

/-- Every operation keeps at most `max_keys` held codes and a one-byte
modifier mask. -/
theorem KbInv_step (s : HIDClient) (op : HIDOp)
    (h : s.kb_keys.length ≤ max_keys ∧ s.kb_mods < 256) :
    (hidStep s op).kb_keys.length ≤ max_keys ∧ (hidStep s op).kb_mods < 256 := by
  cases op with
  | keyDown c m =>
      constructor
      · rw [hidStep_keyDown_kb_keys]
        by_cases hlen : s.kb_keys.length < max_keys
        · rw [if_pos hlen]
          unfold insertIfAbsent
          by_cases hc : c ∈ s.kb_keys
          · rw [if_pos hc]; exact h.1
          · rw [if_neg hc, List.length_append]
            simp only [List.length_cons, List.length_nil]
            omega
        · rw [if_neg hlen]; exact h.1
      · rw [hidStep_keyDown_kb_mods]
        exact Nat.mod_lt m (by omega)
  | keyUp c =>
      cases c with
      | none =>
          have heq : hidStep s (HIDOp.keyUp none)
              = if s.kb_keys = [] then s else kb_send true { s with kb_keys := [] } := rfl
          rw [heq]
          by_cases he : s.kb_keys = []
          · rw [if_pos he]; exact h
          · rw [if_neg he, kb_send_kb_keys, kb_send_kb_mods]
            exact ⟨by simp [max_keys], h.2⟩
      | some c =>
          have heq : hidStep s (HIDOp.keyUp (some c))
              = kb_send true { s with kb_keys := s.kb_keys.erase c } := rfl
          rw [heq, kb_send_kb_keys, kb_send_kb_mods]
          refine ⟨?_, h.2⟩
          show (s.kb_keys.erase c).length ≤ max_keys
          exact le_trans (s.kb_keys.erase_sublist c).length_le h.1
  | consumerDown u =>
      have heq1 : (hidStep s (HIDOp.consumerDown u)).kb_keys
          = (cc_send true { s with cc_usage := u % 65536 }).kb_keys := rfl
      have heq2 : (hidStep s (HIDOp.consumerDown u)).kb_mods
          = (cc_send true { s with cc_usage := u % 65536 }).kb_mods := rfl
      rw [heq1, heq2, cc_send_kb_keys, cc_send_kb_mods]
      exact h
  | consumerUp =>
      have heq1 : (hidStep s HIDOp.consumerUp).kb_keys
          = (cc_send true { s with cc_repeat_on := false, cc_usage := 0 }).kb_keys := rfl
      have heq2 : (hidStep s HIDOp.consumerUp).kb_mods
          = (cc_send true { s with cc_repeat_on := false, cc_usage := 0 }).kb_mods := rfl
      rw [heq1, heq2, cc_send_kb_keys, cc_send_kb_mods]
      exact h
  | ccTick =>
      show ((if s.cc_repeat_on ∧ s.cc_usage ≠ 0 then
          { s with trace := s.trace ++ [(Chan.cc, cc_build s)] } else s)).kb_keys.length ≤ max_keys
        ∧ ((if s.cc_repeat_on ∧ s.cc_usage ≠ 0 then
          { s with trace := s.trace ++ [(Chan.cc, cc_build s)] } else s)).kb_mods < 256
      split <;> exact h

/-- Claim C7: the keyboard sub-machine holds at most 6 down codes and a
one-byte modifier mask along any run; `keyDown` ignores the code at
capacity and otherwise set-inserts it, stores `modifiers & 0xFF`,
rebuilds an 8-byte report whose 2 header bytes are the modifiers and
0x00, caches the rebuilt report and appends it to the sink trace
exactly when it differs from the previous cache; `keyUp` with no code
clears all held codes. -/
theorem c7_keyboard_machine :
    (∀ ops : List HIDOp, (runOps ops).kb_keys.length ≤ max_keys ∧ (runOps ops).kb_mods < 256)
    ∧ (∀ (s : HIDClient) (c m : Nat), s.kb_keys.length = max_keys →
        (hidStep s (HIDOp.keyDown c m)).kb_keys = s.kb_keys)
    ∧ (∀ (s : HIDClient) (c m : Nat), s.kb_keys.length < max_keys →
        (hidStep s (HIDOp.keyDown c m)).kb_keys = insertIfAbsent c s.kb_keys)
    ∧ (∀ (s : HIDClient) (c m : Nat), (hidStep s (HIDOp.keyDown c m)).kb_mods = m % 256)
    ∧ (∀ s : HIDClient, (kb_build s).length = 2 + max_keys
        ∧ (kb_build s).take 2 = [s.kb_mods, 0])
    ∧ (∀ s : HIDClient,
        (kb_send true s).last_kb = some (kb_build s)
        ∧ (kb_send true s).trace
            = s.trace ++ (if some (kb_build s) = s.last_kb then []
                          else [(Chan.kb, kb_build s)]))
    ∧ (∀ s : HIDClient, (hidStep s (HIDOp.keyUp none)).kb_keys = []) := by
  refine ⟨?_, ?_, ?_, ?_, ?_, ?_, ?_⟩
  · intro ops
    have hrun : ∀ (l : List HIDOp) (s : HIDClient),
        s.kb_keys.length ≤ max_keys ∧ s.kb_mods < 256 →
        (l.foldl hidStep s).kb_keys.length ≤ max_keys ∧ (l.foldl hidStep s).kb_mods < 256 := by
      intro l
      induction l with
      | nil => intro s h; exact h
      | cons op t ih =>
          intro s h
          rw [List.foldl_cons]
          exact ih (hidStep s op) (KbInv_step s op h)
    exact hrun ops initHID (by constructor <;> simp [initHID, max_keys])
  · intro s c m h
    rw [hidStep_keyDown_kb_keys, if_neg (by omega)]
  · intro s c m h
    rw [hidStep_keyDown_kb_keys, if_pos h]
  · intro s c m
    exact hidStep_keyDown_kb_mods s c m
  · intro s
    constructor
    · unfold kb_build
      simp only [List.length_cons, List.length_append, List.length_map, List.length_replicate,
        List.length_take]
      omega
    · rfl
  · intro s
    rw [kb_send_true_eq]
    by_cases hd : some (kb_build s) = s.last_kb
    · rw [if_pos hd, if_pos hd]
      exact ⟨hd.symm, by simp⟩
    · rw [if_neg hd, if_neg hd]
      exact ⟨rfl, rfl⟩
  · intro s
    have heq : hidStep s (HIDOp.keyUp none)
        = if s.kb_keys = [] then s else kb_send true { s with kb_keys := [] } := rfl
    rw [heq]
    by_cases he : s.kb_keys = []
    · rw [if_pos he]; exact he
    · rw [if_neg he, kb_send_kb_keys]

/-- Witness for C7, third conjunct, at the fresh client. -/
theorem c7_keyboard_machine_witness :
    (hidStep initHID (HIDOp.keyDown 4 1)).kb_keys = insertIfAbsent 4 initHID.kb_keys :=
  c7_keyboard_machine.2.2.1 initHID 4 1 (by decide)

/-- A successful dict lookup returns one of the stored values. -/
theorem dget_forall_values [DecidableEq κ] (P : β → Prop) (l : List (κ × β))
    (h : ∀ p ∈ l, P p.2) (k : κ) (v : β) (hg : dget l k = some v) : P v := by
  induction l with
  | nil => simp [dget] at hg
  | cons hd t ih =>
      obtain ⟨k0, v0⟩ := hd
      rw [dget] at hg
      by_cases hk0 : k = k0
      · rw [if_pos hk0] at hg
        have hv : v = v0 := (Option.some_inj.mp hg).symm
        subst hv
        exact h (k0, v) (List.mem_cons_self _ _)
      · rw [if_neg hk0] at hg
        exact ih (fun p hp => h p (List.mem_cons_of_mem _ hp)) hg

/-- The scan-identifier fallback chain of the code (hex-reinterpreted
lookup, else literal) computes the hex-then-decimal-then-literal chain
of the specified resolution order. -/
theorem msc_chain_eq (mapping : List (String × String)) (m : Nat) :
    (match pyOr none (dget mapping (toString (hexReinterpret m))) with
     | none => dget mapping (toString m)
     | some v => some v)
      = (match dget mapping (toString (hexReinterpret m)) with
         | some v => some v
         | none =>
             match dget mapping (toString m) with
             | some v => some v
             | none => dget mapping (toString m)) := by
  cases hh : dget mapping (toString (hexReinterpret m)) with
  | some v => simp [pyOr]
  | none =>
      simp only [pyOr]
      cases hl : dget mapping (toString m) <;> rfl

/-- The specified resolution order never yields the empty string out of
the scan-identifier chain when the mapping has no empty values. -/
theorem msc_spec_ne_empty (mapping : List (String × String))
    (hm : ∀ p ∈ mapping, p.2 ≠ "") (m : Nat) (v : String)
    (h : (match dget mapping (toString (hexReinterpret m)) with
          | some w => some w
          | none =>
              match dget mapping (toString m) with
              | some w => some w
              | none => dget mapping (toString m)) = some v) : v ≠ "" := by
  rcases h1 : dget mapping (toString (hexReinterpret m)) with _ | w
  · rw [h1] at h
    have h2 : (match dget mapping (toString m) with
        | some w => some w
        | none => dget mapping (toString m)) = some v := h
    rcases h3 : dget mapping (toString m) with _ | w
    · rw [h3] at h2
      have h4 : (none : Option String) = some v := h2
      exact absurd h4 (by simp)
    · rw [h3] at h2
      have hv : w = v := Option.some_inj.mp h2
      exact hv ▸ dget_forall_values (fun x => x ≠ "") mapping hm _ w h3
  · rw [h1] at h
    have hv : w = v := Option.some_inj.mp h
    exact hv ▸ dget_forall_values (fun x => x ≠ "") mapping hm _ w h1

/-- The specified resolution order never yields the empty string when
the mapping has no empty values. -/
theorem specResolve_ne_empty (mapping : List (String × String))
    (hm : ∀ p ∈ mapping, p.2 ≠ "") (kn : Option String) (lm : Option Nat) (v : String)
    (h : specResolve mapping false kn lm = some v) : v ≠ "" := by
  unfold specResolve at h
  split at h
  · rename_i v' heq
    cases kn with
    | none =>
        have hno : (none : Option String) = some v' := heq
        exact absurd hno (by simp)
    | some k =>
        have hdk : dget mapping k = some v' := heq
        have hv : v' = v := Option.some_inj.mp h
        exact hv ▸ dget_forall_values (fun x => x ≠ "") mapping hm _ v' hdk
  · split at h
    · exact absurd h (by simp)
    · rename_i m
      split at h
      · rename_i w hw
        have hv : w = v := Option.some_inj.mp h
        exact hv ▸ dget_forall_values (fun x => x ≠ "") mapping hm _ w hw
      · split at h
        · rename_i w2 hw2
          have hv : w2 = v := Option.some_inj.mp h
          exact hv ▸ dget_forall_values (fun x => x ≠ "") mapping hm _ w2 hw2
        · rename_i hw2
          rw [hw2] at h
          exact absurd h (by simp)

/-- A keycode whose name the mapping resolves wins outright. -/
theorem resolveLogical_fast_hit (mapping : List (String × String)) (k v : String)
    (lm : Option Nat) (hkne : k ≠ "") (hdk : dget mapping k = some v) :
    resolveLogical mapping false (some k) lm = some v := by
  unfold resolveLogical
  simp only [truthyS, Option.getD_some, hkne, not_false_iff, Bool.false_eq_true,
    decide_eq_true_eq, true_and, ne_eq, not_false_eq_true, if_true, ite_true, hdk]

/-- A keycode name the mapping misses falls back to the scan path. -/
theorem resolveLogical_fast_miss (mapping : List (String × String)) (k : String)
    (lm : Option Nat) (hkne : k ≠ "") (hdk : dget mapping k = none) :
    resolveLogical mapping false (some k) lm = resolveLogical mapping false none lm := by
  unfold resolveLogical
  simp only [truthyS, Option.getD_some, hkne, not_false_iff, Bool.false_eq_true,
    decide_eq_true_eq, true_and, ne_eq, not_false_eq_true, if_true, ite_true, hdk, if_false,
    ite_false]

/-- Specified order: a resolved keycode name wins outright. -/
theorem specResolve_fast_hit (mapping : List (String × String)) (k v : String)
    (lm : Option Nat) (hdk : dget mapping k = some v) :
    specResolve mapping false (some k) lm = some v := by
  unfold specResolve
  split
  · rename_i v' heq
    have h2 : dget mapping k = some v' := heq
    rw [hdk] at h2
    exact congrArg some (Option.some_inj.mp h2).symm
  · rename_i heq
    have h2 : dget mapping k = none := heq
    rw [hdk] at h2
    exact absurd h2 (by simp)

/-- Specified order: a missed keycode name falls back to the scan path. -/
theorem specResolve_fast_miss (mapping : List (String × String)) (k : String)
    (lm : Option Nat) (hdk : dget mapping k = none) :
    specResolve mapping false (some k) lm = specResolve mapping false none lm := by
  unfold specResolve
  split
  · rename_i v' heq
    have h2 : dget mapping k = some v' := heq
    rw [hdk] at h2
    exact absurd h2 (by simp)
  · rfl

/-- Under a mapping with no empty values and a non-empty key name, the
code\'s resolution equals the specified order and resolves (truthily)
exactly when the specified order yields a name. -/
theorem resolveLogical_eq_spec (mapping : List (String × String))
    (hm : ∀ p ∈ mapping, p.2 ≠ "") (key_name : Option String) (hkn : key_name ≠ some "")
    (last_msc : Option Nat) :
    resolveLogical mapping false key_name last_msc
      = specResolve mapping false key_name last_msc
    ∧ truthyS (resolveLogical mapping false key_name last_msc)
      = (resolveLogical mapping false key_name last_msc).isSome := by
  have hmain : resolveLogical mapping false key_name last_msc
      = specResolve mapping false key_name last_msc := by
    cases key_name with
    | none =>
        cases last_msc with
        | none => rfl
        | some m => exact msc_chain_eq mapping m
    | some k =>
        have hkne : k ≠ "" := fun he => hkn (he ▸ rfl)
        cases hdk : dget mapping k with
        | some v =>
            rw [resolveLogical_fast_hit mapping k v last_msc hkne hdk,
              specResolve_fast_hit mapping k v last_msc hdk]
        | none =>
            rw [resolveLogical_fast_miss mapping k last_msc hkne hdk,
              specResolve_fast_miss mapping k last_msc hdk]
            cases last_msc with
            | none => rfl
            | some m => exact msc_chain_eq mapping m
  refine ⟨hmain, ?_⟩
  cases hres : resolveLogical mapping false key_name last_msc with
  | none => rfl
  | some v =>
      have hv : v ≠ "" :=
        specResolve_ne_empty mapping hm key_name last_msc v (hmain.symm.trans hres)
      simp [truthyS, hv]

/-- Claim C8: only `EV_KEY` events with value 1/0 become Down/Up edges
(value 2, hardware auto-repeat, is ignored); `MSC_SCAN` events update
only the remembered scan identifier; other events are skipped; a key
edge resolves its logical name by first trying the keycode→logical-name
mapping, then the most recent scan identifier tried as hex, then
decimal, then as a literal string against the mapping, and an
unresolved event is dropped without dispatch.  (Hypotheses: the config
loader stringifies mapping values and `ecodes.KEY` names are non-empty,
so no table value is the empty string.) -/
theorem c8_event_decode (mapping : List (String × String)) (keyTable : List (Nat × String))
    (hm : ∀ p ∈ mapping, p.2 ≠ "") (hk : ∀ p ∈ keyTable, p.2 ≠ "") :
    (∀ (st : ReaderSt) (ev : InputEvent), ev.etype = EV_KEY → ev.value ≠ 1 → ev.value ≠ 0 →
        stepEvent mapping keyTable false st ev = (st, none))
    ∧ (∀ (st : ReaderSt) (ev : InputEvent), ev.etype = EV_MSC → ev.code = MSC_SCAN →
        stepEvent mapping keyTable false st ev = ({ last_msc := some ev.value }, none))
    ∧ (∀ (st : ReaderSt) (ev : InputEvent),
        ¬ (ev.etype = EV_MSC ∧ ev.code = MSC_SCAN) → ev.etype ≠ EV_KEY →
        stepEvent mapping keyTable false st ev = (st, none))
    ∧ (∀ (st : ReaderSt) (ev : InputEvent), ev.etype = EV_KEY →
        ev.value = 1 ∨ ev.value = 0 →
        stepEvent mapping keyTable false st ev
          = (st, (specResolve mapping false (dget keyTable ev.code) st.last_msc).map
              (fun v => (v, if ev.value = 1 then "down" else "up")))) := by
  refine ⟨?_, ?_, ?_, ?_⟩
  · intro st ev h1 hv1 hv0
    simp [stepEvent, h1, EV_KEY, EV_MSC, hv1, hv0]
  · intro st ev h1 h2
    simp [stepEvent, h1, h2]
  · intro st ev hmsc hkey
    simp [stepEvent, hmsc, hkey]
  · intro st ev h1 hv
    have hkn : dget keyTable ev.code ≠ some "" := by
      intro hc
      exact dget_forall_values (fun x => x ≠ "") keyTable hk ev.code "" hc rfl
    obtain ⟨heq, htr⟩ :=
      resolveLogical_eq_spec mapping hm (dget keyTable ev.code) hkn st.last_msc
    rcases hv with hv | hv
    · have hstep : stepEvent mapping keyTable false st ev
          = (if truthyS (resolveLogical mapping false (dget keyTable ev.code) st.last_msc)
             then (st, some ((resolveLogical mapping false (dget keyTable ev.code)
                  st.last_msc).getD "", "down"))
             else (st, none)) := by
        simp [stepEvent, h1, hv, EV_KEY, EV_MSC]
      rw [hstep, ← heq, hv]
      cases hres : resolveLogical mapping false (dget keyTable ev.code) st.last_msc with
      | none => simp [truthyS]
      | some v =>
          rw [hres] at htr
          simp only [Option.isSome_some] at htr
          simp [htr]
    · have hstep : stepEvent mapping keyTable false st ev
          = (if truthyS (resolveLogical mapping false (dget keyTable ev.code) st.last_msc)
             then (st, some ((resolveLogical mapping false (dget keyTable ev.code)
                  st.last_msc).getD "", "up"))
             else (st, none)) := by
        simp [stepEvent, h1, hv, EV_KEY, EV_MSC]
      rw [hstep, ← heq, hv]
      cases hres : resolveLogical mapping false (dget keyTable ev.code) st.last_msc with
      | none => simp [truthyS]
      | some v =>
          rw [hres] at htr
          simp only [Option.isSome_some] at htr
          simp [htr]

/-- A concrete remote mapping. -/
def c8map : List (String × String) := [("KEY_UP", "dpad_up"), ("786", "ok_btn")]

/-- A concrete keycode-name table. -/
def c8keys : List (Nat × String) := [(103, "KEY_UP")]

/-- Witness for C8: a hardware auto-repeat event (value 2) is ignored. -/
theorem c8_event_decode_witness :
    stepEvent c8map c8keys false { last_msc := none } { etype := 1, code := 103, value := 2 }
      = ({ last_msc := none }, none) :=
  (c8_event_decode c8map c8keys (by decide) (by decide)).1 { last_msc := none }
    { etype := 1, code := 103, value := 2 } rfl (by decide) (by decide)

/-- The starting backoff base is positive. -/
theorem initialBackoff_pos (r : ℚ) : 0 < initialBackoff r :=
  lt_of_lt_of_le (by norm_num) (le_max_left (2/10) r)

/-- The backoff base never exceeds the ceiling. -/
theorem backoffBases_le (b0 : ℚ) (h0 : b0 ≤ backoff_max) :
    ∀ n, backoffBases b0 n ≤ backoff_max
  | 0 => h0
  | n + 1 => min_le_left _ _

/-- The backoff base stays positive. -/
theorem backoffBases_pos (b0 : ℚ) (h0 : 0 < b0) : ∀ n, 0 < backoffBases b0 n
  | 0 => h0
  | n + 1 => by
      have hn := backoffBases_pos b0 h0 n
      show 0 < min backoff_max (backoffBases b0 n * (17/10))
      exact lt_min (by norm_num [backoff_max]) (by nlinarith)

/-- Claim C9 (amended): with a starting base `max(0.2, retry_backoff)`
not above the 10 s ceiling and every jitter factor drawn from
`[0.8, 1.2]`, the backoff BASE is non-decreasing across consecutive
failures and never exceeds the ceiling, and each slept delay (the base
times its jitter factor) is at most 12 s; the slept delays themselves
may decrease and may exceed 10 s by up to the jitter. -/
theorem c9_backoff_bounds (r : ℚ) (j : Nat → ℚ) (n : Nat)
    (hr : initialBackoff r ≤ backoff_max)
    (hj : ∀ k, 4/5 ≤ j k ∧ j k ≤ 6/5) :
    backoffBases (initialBackoff r) n ≤ backoffBases (initialBackoff r) (n + 1)
    ∧ backoffBases (initialBackoff r) n ≤ backoff_max
    ∧ sleptDelay (initialBackoff r) j n ≤ 12 := by
  have hpos := backoffBases_pos (initialBackoff r) (initialBackoff_pos r) n
  have hle := backoffBases_le (initialBackoff r) hr n
  refine ⟨?_, hle, ?_⟩
  · show backoffBases (initialBackoff r) n
      ≤ min backoff_max (backoffBases (initialBackoff r) n * (17/10))
    exact le_min hle (by nlinarith)
  · unfold sleptDelay
    have hj1 := (hj n).1
    have hj2 := (hj n).2
    have hjpos : (0 : ℚ) ≤ j n := le_trans (by norm_num) hj1
    calc backoffBases (initialBackoff r) n * j n
        ≤ backoff_max * (6/5) :=
          mul_le_mul hle hj2 hjpos (by norm_num [backoff_max])
      _ = 12 := by norm_num [backoff_max]

/-- Witness for C9 (amended) at `retry_backoff = 1`, unit jitter. -/
theorem c9_backoff_bounds_witness :
    backoffBases (initialBackoff 1) 0 ≤ backoffBases (initialBackoff 1) 1
    ∧ backoffBases (initialBackoff 1) 0 ≤ backoff_max
    ∧ sleptDelay (initialBackoff 1) (fun _ => 1) 0 ≤ 12 :=
  c9_backoff_bounds 1 (fun _ => 1) 0
    (by unfold initialBackoff backoff_max; rw [max_le_iff]; norm_num)
    (fun k => ⟨by norm_num, by norm_num⟩)

/-- Counterexample to claim C9 as stated: with admissible jitter draws
(+20% on the 6th failure, −20% on the 7th) the slept delays are 12 s
then 8 s — the delay sequence decreases and exceeds the 10 s ceiling. -/
theorem c9_counterexample :
    (4/5 ≤ c9j 5 ∧ c9j 5 ≤ 6/5) ∧ (4/5 ≤ c9j 6 ∧ c9j 6 ≤ 6/5)
    ∧ sleptDelay (initialBackoff 1) c9j 6 < sleptDelay (initialBackoff 1) c9j 5
    ∧ backoff_max < sleptDelay (initialBackoff 1) c9j 5 := by
  have h0 : initialBackoff 1 = 1 := by
    unfold initialBackoff
    rw [max_eq_right (by norm_num : (2/10 : ℚ) ≤ 1)]
  have hs : ∀ (b : ℚ) (n : Nat),
      backoffBases b (n + 1) = min backoff_max (backoffBases b n * (17/10)) :=
    fun b n => rfl
  have h1 : backoffBases (initialBackoff 1) 1 = 17/10 := by
    rw [hs, show backoffBases (initialBackoff 1) 0 = 1 from h0,
      min_eq_right (by norm_num [backoff_max] : (1 : ℚ) * (17/10) ≤ backoff_max)]
    norm_num
  have h2 : backoffBases (initialBackoff 1) 2 = 289/100 := by
    rw [hs, h1,
      min_eq_right (by norm_num [backoff_max] : (17/10 : ℚ) * (17/10) ≤ backoff_max)]
    norm_num
  have h3 : backoffBases (initialBackoff 1) 3 = 4913/1000 := by
    rw [hs, h2,
      min_eq_right (by norm_num [backoff_max] : (289/100 : ℚ) * (17/10) ≤ backoff_max)]
    norm_num
  have h4 : backoffBases (initialBackoff 1) 4 = 83521/10000 := by
    rw [hs, h3,
      min_eq_right (by norm_num [backoff_max] : (4913/1000 : ℚ) * (17/10) ≤ backoff_max)]
    norm_num
  have h5 : backoffBases (initialBackoff 1) 5 = backoff_max := by
    rw [hs, h4,
      min_eq_left (by norm_num [backoff_max] : backoff_max ≤ (83521/10000 : ℚ) * (17/10))]
  have h6 : backoffBases (initialBackoff 1) 6 = backoff_max := by
    rw [hs, h5,
      min_eq_left (by norm_num [backoff_max] : backoff_max ≤ backoff_max * (17/10))]
  refine ⟨⟨by norm_num [c9j], by norm_num [c9j]⟩, ⟨by norm_num [c9j], by norm_num [c9j]⟩,
    ?_, ?_⟩
  · unfold sleptDelay
    rw [h5, h6]
    norm_num [c9j, backoff_max]
  · unfold sleptDelay
    rw [h5]
    norm_num [c9j, backoff_max]

end PiHub
